import Mathlib

/-!
Verification development for the ethereum-cache JSON-RPC caching proxy.

The development shallowly embeds the core of the Go implementation:

* the cacheability oracle and canonical cache-key derivation
  (`isCacheable`, `isBlockNumberSpecific`, `generateCacheKey`,
  `normalizeForCache` from internal/proxy),
* the request pipeline of `Handler.ServeHTTP` (`serve`),
* the store prune query `DB.PruneCache` (`pruneDeleted`, `pruneFreed`),
* the eviction manager's decision logic (`cleanupDecision`).

Modelling conventions, used throughout:

* JSON texts are represented by the syntax tree `JTxt`; two request bodies
  that differ only by insignificant whitespace have the same `JTxt`, so
  whitespace insensitivity is inherited from the representation.
* Go's `encoding/json` decoding of a value into `interface{}` is modelled by
  `goDecode`: objects become key-sorted association lists (Go maps are
  unordered; a later duplicate key overrides an earlier one), arrays become
  lists, and JSON numbers become their decoded float64 datum, represented by
  `F64`: the exact rational value of the numeral together with the sign bit
  of a zero.  Two numerals with equal `F64` decode to the same float64 datum
  (equal rationals round to the same float64, and the sign of a zero result
  is the literal's sign); the converse fails — distinct rationals may round
  to the same float64 — so the model distinguishes at least as finely as the
  program and every key EQUALITY proved here holds of the program.
  Decoding into `[]interface{}` fails on numerals whose value overflows
  float64 (`strconv.ParseFloat` range error, surfaced by `encoding/json` as
  an unmarshalling error); `numLitOk`/`jtOk` model that check.  The
  scanner's nesting-depth limit cannot newly fail here: the whole request
  body, in which params is strictly nested, was already scanned by the
  body-level `json.Unmarshal`, so params passed a stricter depth bound.
  Underflow returns the nearest (sub)normal or signed zero without error.
* `crypto/sha256` followed by lowercase-hex encoding is a fixed
  deterministic function applied to `method || canonicalJSON`; the claims
  settled here concern only equality of derived keys, which is determined
  by that hash preimage.  `generateCacheKey` therefore returns the preimage.
* Go's `json.Marshal` output for the normalised value is modelled by
  `marshal`; string escaping and float formatting are simplified (none of
  the strings involved need escapes, and no claim depends on the exact
  numeral bytes, only on equality of marshalled forms; equal `F64` data
  marshal equally in Go, and `-0` is rendered distinctly from `0` exactly
  as `strconv.AppendFloat` does).
* float64 arithmetic in the eviction manager is modelled exactly:
  `fround` implements IEEE-754 binary64 round-to-nearest, ties-to-even
  (including the subnormal grid below 2^-1022) over the rationals, and the
  claims about `Manager.cleanup` stay inside the finite range where this
  model and Go agree (overflow to infinity and out-of-range `int64`
  conversions — implementation-specific in Go — are unreachable under the
  stated hypotheses).
-/

/-- Structure of a JSON number literal as written in the request text:
optional sign, integer digits, fractional digits, decimal exponent. -/
structure NumLit where
  neg : Bool
  digits : List Nat
  frac : List Nat
  ex : Int
deriving DecidableEq

/-- Numeric value of a digit string, most significant digit first. -/
def digitsVal (l : List Nat) : Nat := l.foldl (fun a d => 10 * a + d) 0

/-- Rational value denoted by a number literal.  Go's `encoding/json`
parses numbers with `strconv.ParseFloat` into `float64`; for numerals whose
value is exactly representable (all numerals used here) the result equals
this exact value. -/
def NumLit.val (n : NumLit) : ℚ :=
  let base : ℚ := (digitsVal n.digits : ℚ) + (digitsVal n.frac : ℚ) / ((10 : ℚ) ^ n.frac.length)
  let scaled : ℚ :=
    if 0 ≤ n.ex then base * (10 : ℚ) ^ n.ex.toNat else base / ((10 : ℚ) ^ (-n.ex).toNat)
  if n.neg then -scaled else scaled

/-- Threshold at which `strconv.ParseFloat` reports a range error: round to
nearest-even overflows float64 exactly when the magnitude is at least
2^1024 - 2^970 (the midpoint above the largest finite double rounds up). -/
def floatOverflowThreshold : ℚ := 2 ^ (1024 : ℕ) - 2 ^ (970 : ℕ)

/-- Whether `strconv.ParseFloat` accepts the numeral without a range
error. -/
def numLitOk (n : NumLit) : Bool := decide (|n.val| < floatOverflowThreshold)

/-- A decoded float64 datum, identified by the exact rational value of the
source numeral plus the sign bit of a zero.  Equal rationals round to the
same float64, and a parsed zero carries the literal's sign, so numerals
with equal `F64` denote the same float64 datum; distinct `F64` may still
round to the same float64, so the model only ever proves EQUALITIES of the
program's keys (see the module comment). -/
structure F64 where
  val : ℚ
  negZero : Bool
deriving DecidableEq

/-- The float64 datum a numeral parses to: its exact rational value, and
the negative-zero sign bit when a negative literal denotes zero. -/
def NumLit.dec (n : NumLit) : F64 := ⟨n.val, n.neg && decide (n.val = 0)⟩

/-- Syntax tree of a JSON document (the `params` field of a request).
Object fields are kept in their textual order; insignificant whitespace is
not represented. -/
inductive JTxt where
  | null
  | boolean (b : Bool)
  | num (lit : NumLit)
  | str (s : String)
  | arr (elems : List JTxt)
  | obj (fields : List (String × JTxt))

mutual

/-- Every numeral in the document is within float64 range, so that
`json.Unmarshal` decodes the document without a range error. -/
def jtOk : JTxt → Bool
  | JTxt.num lit => numLitOk lit
  | JTxt.arr xs => jtListOk xs
  | JTxt.obj kvs => jtFieldsOk kvs
  | _ => true

def jtListOk : List JTxt → Bool
  | [] => true
  | x :: xs => jtOk x && jtListOk xs

def jtFieldsOk : List (String × JTxt) → Bool
  | [] => true
  | (_, v) :: rest => jtOk v && jtFieldsOk rest

end

/-- A decoded Go value, the result of `json.Unmarshal` into `interface{}`:
`nil`, `bool`, `float64` (held as the exact rational), `string`,
`[]interface{}`, or `map[string]interface{}` (held as a key-sorted
association list, the canonical representation of the unordered Go map). -/
inductive GoValue where
  | null
  | boolean (b : Bool)
  | num (f : F64)
  | str (s : String)
  | arr (elems : List GoValue)
  | map (fields : List (String × GoValue))

/-- Insert a key/value pair into a key-sorted association list, replacing an
existing binding of the same key (Go map assignment). -/
def insertSorted (k : String) (v : GoValue) : List (String × GoValue) → List (String × GoValue)
  | [] => [(k, v)]
  | (k₀, v₀) :: rest =>
    if k < k₀ then (k, v) :: (k₀, v₀) :: rest
    else if k = k₀ then (k, v) :: rest
    else (k₀, v₀) :: insertSorted k v rest

/-- Build the canonical (key-sorted) representation of a Go map from object
fields in textual order; a later duplicate key overrides an earlier one,
as in `encoding/json`. -/
def mapFromPairs (l : List (String × GoValue)) : List (String × GoValue) :=
  l.foldl (fun m kv => insertSorted kv.1 kv.2 m) []

mutual

/-- Decoding of a JSON document into a Go `interface{}` value, as performed
by `json.Unmarshal` (objects to maps, arrays to slices, numbers to float64). -/
def goDecode : JTxt → GoValue
  | JTxt.null => GoValue.null
  | JTxt.boolean b => GoValue.boolean b
  | JTxt.num lit => GoValue.num lit.dec
  | JTxt.str s => GoValue.str s
  | JTxt.arr xs => GoValue.arr (goDecodeList xs)
  | JTxt.obj kvs => GoValue.map (mapFromPairs (goDecodeFields kvs))

def goDecodeList : List JTxt → List GoValue
  | [] => []
  | x :: xs => goDecode x :: goDecodeList xs

def goDecodeFields : List (String × JTxt) → List (String × GoValue)
  | [] => []
  | (k, v) :: rest => (k, goDecode v) :: goDecodeFields rest

end

/-- Result of `json.Unmarshal(data, &args)` for `var args []interface{}`:
succeeds on a JSON array whose numerals are all within float64 range
(decoding the elements) and on JSON `null` (leaving the slice nil, which
behaves as the empty slice); fails on any other JSON value, and on an
array containing a numeral outside float64 range (`strconv.ParseFloat`
range error surfaced as an unmarshalling error). -/
def unmarshalSlice : JTxt → Except Unit (List GoValue)
  | JTxt.null => Except.ok []
  | JTxt.arr xs => if jtListOk xs then Except.ok (goDecodeList xs) else Except.error ()
  | _ => Except.error ()

/-- Translation of `isBlockNumberSpecific(params, index)`: unmarshal the raw
params into a slice (a missing params field makes `json.Unmarshal` fail),
require the element at `index` to exist and be a string different from the
three block tags. -/
def isBlockNumberSpecific (params : Option JTxt) (index : Nat) : Bool :=
  match params with
  | none => false
  | some t =>
    match unmarshalSlice t with
    | Except.error _ => false
    | Except.ok args =>
      match args[index]? with
      | some (GoValue.str s) => s != "latest" && s != "pending" && s != "earliest"
      | _ => false

/-- Translation of `isCacheable(method, params)`. -/
def isCacheable (method : String) (params : Option JTxt) : Bool :=
  if method = "debug_traceTransaction" ∨ method = "eth_getTransactionByHash"
      ∨ method = "eth_getTransactionReceipt" then
    true
  else if method = "eth_getStorageAt" then
    isBlockNumberSpecific params 2
  else if method = "eth_getProof" then
    isBlockNumberSpecific params 2
  else
    false

/-- Rendering of a decoded number by `json.Marshal` (Go prints float64 with
the shortest representation; integral values print without a fraction, and
negative zero prints as -0).  No claim depends on the exact bytes, only on
equality of rendered forms, which equal `F64` data guarantee. -/
def renderNum (f : F64) : String :=
  if f.negZero then "-0"
  else if f.val.den = 1 then toString f.val.num else toString f.val

/-- Rendering of a string by `json.Marshal` (escaping omitted; no string in
this development needs escapes). -/
def renderStr (s : String) : String := "\"" ++ s ++ "\""

mutual

/-- Canonical serialisation of a decoded value, modelling `json.Marshal`
with no extraneous whitespace. -/
def marshal : GoValue → String
  | GoValue.null => "null"
  | GoValue.boolean b => if b then "true" else "false"
  | GoValue.num f => renderNum f
  | GoValue.str s => renderStr s
  | GoValue.arr xs => "[" ++ marshalList xs ++ "]"
  | GoValue.map kvs => "\x7b" ++ marshalFields kvs ++ "\x7d"

def marshalList : List GoValue → String
  | [] => ""
  | [x] => marshal x
  | x :: xs => marshal x ++ "," ++ marshalList xs

def marshalFields : List (String × GoValue) → String
  | [] => ""
  | [(k, v)] => renderStr k ++ ":" ++ marshal v
  | (k, v) :: rest => renderStr k ++ ":" ++ marshal v ++ "," ++ marshalFields rest

end

/-- Sorted insertion of an already-normalised field, used to model
`sort.Strings(keys)` over the map's keys. -/
def insertField (kv : String × GoValue) : List (String × GoValue) → List (String × GoValue)
  | [] => [kv]
  | kv₀ :: rest => if kv.1 ≤ kv₀.1 then kv :: kv₀ :: rest else kv₀ :: insertField kv rest

/-- Insertion sort of fields by key, modelling `sort.Strings` over the
collected map keys. -/
def sortFields : List (String × GoValue) → List (String × GoValue)
  | [] => []
  | kv :: rest => insertField kv (sortFields rest)

mutual

/-- Translation of `normalizeForCache`: maps become arrays of `{k, v}`
pair objects sorted by key (values normalised first, then the fields are
sorted — sorting compares keys only, so this is the same result as the
source's sort-then-recurse); arrays are normalised elementwise; scalars are
returned unchanged. -/
def normalizeForCache : GoValue → GoValue
  | GoValue.null => GoValue.null
  | GoValue.boolean b => GoValue.boolean b
  | GoValue.num f => GoValue.num f
  | GoValue.str s => GoValue.str s
  | GoValue.arr xs => GoValue.arr (normList xs)
  | GoValue.map kvs =>
    GoValue.arr ((sortFields (normFields kvs)).map fun kv =>
      GoValue.map [("k", GoValue.str kv.1), ("v", kv.2)])

def normList : List GoValue → List GoValue
  | [] => []
  | x :: xs => normalizeForCache x :: normList xs

def normFields : List (String × GoValue) → List (String × GoValue)
  | [] => []
  | (k, v) :: rest => (k, normalizeForCache v) :: normFields rest

end

/-- Serialised canonical body hashed for the cache key (the part after the
method name in the SHA-256 preimage). -/
def cacheKeyBody (args : List GoValue) : String :=
  marshal (normalizeForCache (GoValue.arr args))

/-- Translation of `generateCacheKey`: empty/missing params leaves the
`[]interface{}` slice nil (which normalises like the empty array); non-empty
params must unmarshal into a slice.  Returns the SHA-256 preimage
`method || canonicalJSON` (see the module comment: the hash itself is a
fixed deterministic post-composition, irrelevant to key equality). -/
def generateCacheKey (method : String) (params : Option JTxt) : Except Unit String :=
  match params with
  | none => Except.ok (method ++ cacheKeyBody [])
  | some t =>
    match unmarshalSlice t with
    | Except.ok args => Except.ok (method ++ cacheKeyBody args)
    | Except.error e => Except.error e

/-- Whether `json.Unmarshal` into `[]interface{}` accepts this JSON value:
an array all of whose numerals are within float64 range, or null. -/
def sliceDecodable : JTxt → Bool
  | JTxt.null => true
  | JTxt.arr xs => jtListOk xs
  | _ => false

/-- Claim-side predicate for C10 (amended): params present and decodable as
neither an array nor null. -/
def paramsRejected : Option JTxt → Bool
  | none => false
  | some t => !(sliceDecodable t)

/-- Whether key derivation succeeded. -/
def exceptIsOk : Except Unit String → Bool
  | Except.ok _ => true
  | Except.error _ => false

/-- No duplicate among a list of object keys (executable form). -/
def keysNodup : List String → Bool
  | [] => true
  | k :: rest => !(rest.elem k) && keysNodup rest

mutual

/-- Every JSON object in the document has pairwise-distinct keys.  Duplicate
keys make the Go map drop entries, so "differing only by key order" is only
meaningful under this condition. -/
def nodupKeysT : JTxt → Bool
  | JTxt.arr xs => nodupKeysList xs
  | JTxt.obj kvs => keysNodup (kvs.map Prod.fst) && nodupKeysFields kvs
  | _ => true

def nodupKeysList : List JTxt → Bool
  | [] => true
  | x :: xs => nodupKeysT x && nodupKeysList xs

def nodupKeysFields : List (String × JTxt) → Bool
  | [] => true
  | (_, v) :: rest => nodupKeysT v && nodupKeysFields rest

end

/-- Lift of `nodupKeysT` to an optional params document. -/
def paramsNodupKeys : Option JTxt → Bool
  | none => true
  | some t => nodupKeysT t

mutual

/-- Two JSON documents differ at most by the order of object fields,
recursively (the spec's "differ only by JSON object key order"). -/
inductive KeyOrderEquiv : JTxt → JTxt → Prop where
  | null : KeyOrderEquiv JTxt.null JTxt.null
  | boolean (b : Bool) : KeyOrderEquiv (JTxt.boolean b) (JTxt.boolean b)
  | num (lit : NumLit) : KeyOrderEquiv (JTxt.num lit) (JTxt.num lit)
  | str (s : String) : KeyOrderEquiv (JTxt.str s) (JTxt.str s)
  | arr {xs ys : List JTxt} : KeyOrderEquivList xs ys →
      KeyOrderEquiv (JTxt.arr xs) (JTxt.arr ys)
  | obj {kvs₁ kvs₂ kvs₃ : List (String × JTxt)} : KeyOrderEquivFields kvs₁ kvs₂ →
      List.Perm kvs₂ kvs₃ → KeyOrderEquiv (JTxt.obj kvs₁) (JTxt.obj kvs₃)

inductive KeyOrderEquivList : List JTxt → List JTxt → Prop where
  | nil : KeyOrderEquivList [] []
  | cons {x y : JTxt} {xs ys : List JTxt} : KeyOrderEquiv x y → KeyOrderEquivList xs ys →
      KeyOrderEquivList (x :: xs) (y :: ys)

inductive KeyOrderEquivFields : List (String × JTxt) → List (String × JTxt) → Prop where
  | nil : KeyOrderEquivFields [] []
  | cons {k : String} {v w : JTxt} {rest₁ rest₂ : List (String × JTxt)} :
      KeyOrderEquiv v w → KeyOrderEquivFields rest₁ rest₂ →
      KeyOrderEquivFields ((k, v) :: rest₁) ((k, w) :: rest₂)

end

/-- `KeyOrderEquiv` lifted to the optional params field. -/
def ParamsEquiv : Option JTxt → Option JTxt → Prop
  | none, none => True
  | some t₁, some t₂ => KeyOrderEquiv t₁ t₂
  | _, _ => False

/-- Strict ordering of association-list entries by key, the invariant of the
canonical Go-map representation. -/
def keyLT (a b : String × GoValue) : Prop := a.1 < b.1

/-- Parsed upstream JSON-RPC envelope (`JSONRPCResponse`): the raw bytes of
the `result` field and the decoded `error` field (`none` models a JSON
`error` that is absent or null, which Go decodes to `nil`). -/
structure Envelope where
  result : String
  error : Option GoValue

/-- The upstream HTTP response body: its raw bytes, and the envelope when
the bytes unmarshal as a `JSONRPCResponse`. -/
structure UpstreamBody where
  raw : String
  envelope : Option Envelope

/-- Cache table keyed by cache key (`GetCachedRPCResult` read view). -/
def lookupStore : List (String × String) → String → Option String
  | [], _ => none
  | (k, v) :: rest, key => if k = key then some v else lookupStore rest key

/-- Insert-or-replace of a cache row (`SetCachedRPCResult`). -/
def putStore : List (String × String) → String → String → List (String × String)
  | [], key, v => [(key, v)]
  | (k, w) :: rest, key, v =>
    if k = key then (key, v) :: rest else (k, w) :: putStore rest key v

/-- Body written to the client: a reconstructed envelope around a cached
result (hit path) or the upstream body verbatim (miss path). -/
inductive RespBody where
  | hit (result : String)
  | upstream (raw : String)
deriving DecidableEq

/-- Observable effects of one `ServeHTTP` dispatch (the stage after the
request body has been read and parsed): HTTP status, response body, number
of upstream calls, of rate-limiter waits, of store reads and successful
store writes, and the hit/miss counter increments for the request's method. -/
structure Outcome where
  status : Nat
  body : RespBody
  upstreamCalls : Nat
  limiterWaits : Nat
  storeReads : Nat
  storeWrites : Nat
  hitInc : Nat
  missInc : Nat
deriving DecidableEq

/-- Conditional write-back after the upstream response (ServeHTTP lines
124–138): only a cacheable request whose upstream body unmarshals as an
envelope with nil `error` and whose key derivation succeeds is stored; a
failing store write is swallowed.  Returns the new table and the number of
rows written. -/
def writeBack (method : String) (params : Option JTxt) (writeErr : Bool)
    (up : UpstreamBody) (st : List (String × String)) : List (String × String) × Nat :=
  if isCacheable method params then
    match up.envelope with
    | some env =>
      match env.error with
      | none =>
        match generateCacheKey method params with
        | Except.ok key => if writeErr then (st, 0) else (putStore st key env.result, 1)
        | Except.error _ => (st, 0)
      | some _ => (st, 0)
    | none => (st, 0)
  else (st, 0)

/-- Upstream leg of the pipeline: one limiter wait when a limiter is
configured, one upstream call, write-back, and the upstream body emitted
verbatim with status 200.  `reads`/`misses` carry the effects of the
preceding cache-lookup stage. -/
def forwardUpstream (method : String) (params : Option JTxt) (lim writeErr : Bool)
    (up : UpstreamBody) (st : List (String × String)) (reads misses : Nat) :
    Outcome × List (String × String) :=
  let wb := writeBack method params writeErr up st
  (⟨200, RespBody.upstream up.raw, 1, if lim then 1 else 0, reads, wb.2, 0, misses⟩, wb.1)

/-- One dispatch of `Handler.ServeHTTP` after body read and parse succeed,
with the upstream response body and the store failure modes supplied as
parameters (`readErr`: the store read fails, treated as a miss; `writeErr`:
the store write fails, swallowed).  Mirrors lines 75–142 of the handler:
cacheable requests with a derivable key consult the store; a hit is answered
from the store with a reconstructed envelope; everything else goes upstream. -/
def serve (method : String) (params : Option JTxt) (lim readErr writeErr : Bool)
    (up : UpstreamBody) (st : List (String × String)) : Outcome × List (String × String) :=
  if isCacheable method params then
    match generateCacheKey method params with
    | Except.ok key =>
      if readErr then
        forwardUpstream method params lim writeErr up st 1 1
      else
        match lookupStore st key with
        | some cached => (⟨200, RespBody.hit cached, 0, 0, 1, 0, 1, 0⟩, st)
        | none => forwardUpstream method params lim writeErr up st 1 1
    | Except.error _ => forwardUpstream method params lim writeErr up st 0 0
  else forwardUpstream method params lim writeErr up st 0 0

/-- Sequential dispatch of several requests (with their would-be upstream
responses) against an evolving store, totalling upstream calls and limiter
waits. -/
def serveAll (lim : Bool) : List (String × Option JTxt × UpstreamBody) →
    List (String × String) → Nat × Nat × List (String × String)
  | [], st => (0, 0, st)
  | (m, p, up) :: rest, st =>
    let o := serve m p lim false false up st
    let r := serveAll lim rest o.2
    (o.1.upstreamCalls + r.1, o.1.limiterWaits + r.2.1, r.2.2)

/-- A row of the `rpc_cache` table, with the columns the prune query reads.
`resultLength` is set from `len(response)` and is therefore a natural
number; timestamps are ordered values in the store's clock domain. -/
structure Row where
  key : String
  resultLength : Nat
  lastAccessedAt : Int
deriving DecidableEq

/-- The per-row size `result_length + 64` used by the size and prune
queries. -/
def itemSize (r : Row) : Int := (r.resultLength : Int) + 64

/-- SQL ordering `last_accessed_at ASC, result_length DESC`: `s` sorts at or
before `r` (peers — rows equal in both columns — satisfy it both ways). -/
def rowLE (s r : Row) : Bool :=
  decide (s.lastAccessedAt < r.lastAccessedAt) ||
    (decide (s.lastAccessedAt = r.lastAccessedAt) && decide (r.resultLength ≤ s.resultLength))

/-- Strict version of `rowLE`: `s` sorts strictly before `r`. -/
def rowLT (s r : Row) : Bool :=
  decide (s.lastAccessedAt < r.lastAccessedAt) ||
    (decide (s.lastAccessedAt = r.lastAccessedAt) && decide (r.resultLength < s.resultLength))

/-- The window aggregate `SUM(result_length + 64) OVER (ORDER BY
last_accessed_at ASC, result_length DESC)` of the prune query.  The default
window frame is `RANGE ... CURRENT ROW`, so the sum ranges over every row
ordered at or before `r`, peers included, independently of how the engine
breaks ties. -/
def runningTotal (table : List Row) (r : Row) : Int :=
  ((table.filter fun s => rowLE s r).map itemSize).sum

/-- The prune predicate `running_total - item_size < bytes_to_free`. -/
def pruneCond (table : List Row) (b : Int) (r : Row) : Bool :=
  decide (runningTotal table r - itemSize r < b)

/-- Rows deleted by `DB.PruneCache(bytes_to_free)`. -/
def pruneDeleted (table : List Row) (b : Int) : List Row :=
  table.filter (pruneCond table b)

/-- Rows surviving `DB.PruneCache(bytes_to_free)`. -/
def pruneRemaining (table : List Row) (b : Int) : List Row :=
  table.filter fun r => !(pruneCond table b r)

/-- The value returned by `DB.PruneCache`: `SUM(result_length + 64)` over
the deleted rows. -/
def pruneFreed (table : List Row) (b : Int) : Int :=
  ((pruneDeleted table b).map itemSize).sum

/-- Modelled from the claims' words (C4): walking the table in scan order,
delete each row whose prefix sum of sizes excluding the row itself (`acc`)
is strictly below `b`. -/
def scanDeleted : List Row → Int → Int → List Row
  | [], _, _ => []
  | r :: rest, acc, b => if acc < b then r :: scanDeleted rest (acc + itemSize r) b else []

/-- Companion of `scanDeleted`: the rows it does not delete. -/
def scanKept : List Row → Int → Int → List Row
  | [], _, _ => []
  | r :: rest, acc, b => if acc < b then scanKept rest (acc + itemSize r) b else r :: rest

/-- Modelled from the claim's words (C5): the prefix of rows whose cumulative
size, the row itself included, stays strictly below `b`. -/
def cumulScan : List Row → Int → Int → List Row
  | [], _, _ => []
  | r :: rest, acc, b =>
    if acc + itemSize r < b then r :: cumulScan rest (acc + itemSize r) b else []

/-- The numeral `1` as written. -/
def numLitOne : NumLit := ⟨false, [1], [], 0⟩

/-- The numeral `1.0` as written. -/
def numLitOnePointZero : NumLit := ⟨false, [1], [0], 0⟩

/-- The numeral `1e400` as written: syntactically fine, out of float64
range. -/
def numLitHuge : NumLit := ⟨false, [1], [], 400⟩

/-- Two rows that are peers in the prune ordering (equal `last_accessed_at`
and equal `result_length`), each of size 100. -/
def rowTieA : Row := ⟨"a", 36, 0⟩

/-- See `rowTieA`. -/
def rowTieB : Row := ⟨"b", 36, 0⟩

/-- Two strictly ordered rows of size 100 each. -/
def rowOldC : Row := ⟨"c", 36, 0⟩

/-- See `rowOldC`. -/
def rowNewD : Row := ⟨"d", 36, 1⟩

theorem goDecodeList_eq_map (xs : List JTxt) : goDecodeList xs = xs.map goDecode := by
  induction xs with
  | nil => rfl
  | cons x xs ih => simp [goDecodeList, ih]

theorem goDecode_eq_str (t : JTxt) (s : String) :
    goDecode t = GoValue.str s ↔ t = JTxt.str s := by
  cases t <;> simp [goDecode]

set_option maxHeartbeats 2000000 in
/-- Unfolding equation for `jtOk` at a numeral. -/
theorem jtOk_num (lit : NumLit) : jtOk (JTxt.num lit) = numLitOk lit := by
  rw [jtOk]

/-- Unfolding equation for `jtListOk` at a cons cell. -/
theorem jtListOk_cons_eq (x : JTxt) (xs : List JTxt) :
    jtListOk (x :: xs) = (jtOk x && jtListOk xs) := by
  rw [jtListOk]

theorem isBlockNumberSpecific_iff (params : Option JTxt) :
    isBlockNumberSpecific params 2 = true ↔
      ∃ xs s, params = some (JTxt.arr xs) ∧ jtListOk xs = true ∧
        xs[2]? = some (JTxt.str s) ∧
        s ≠ "latest" ∧ s ≠ "pending" ∧ s ≠ "earliest" := by
  cases params with
  | none => simp [isBlockNumberSpecific]
  | some t =>
    cases t with
    | arr xs =>
      by_cases hok : jtListOk xs = true
      · simp only [isBlockNumberSpecific, unmarshalSlice, if_pos hok,
          goDecodeList_eq_map]
        rw [List.getElem?_map]
        cases hx : xs[2]? with
        | none => simp [hx, hok]
        | some t₂ =>
          cases t₂ <;>
            simp [goDecode, hx, hok, Bool.and_eq_true, bne_iff_ne, and_assoc]
      · simp [isBlockNumberSpecific, unmarshalSlice, if_neg hok, hok]
    | null =>
      simp [isBlockNumberSpecific, unmarshalSlice]
    | boolean b => simp [isBlockNumberSpecific, unmarshalSlice]
    | num lit => simp [isBlockNumberSpecific, unmarshalSlice]
    | str s => simp [isBlockNumberSpecific, unmarshalSlice]
    | obj kvs => simp [isBlockNumberSpecific, unmarshalSlice]

/-- C1 (amended): the cacheability oracle returns true exactly for the
three always-cacheable methods, and for `eth_getStorageAt` / `eth_getProof`
exactly when params is a JSON array that `encoding/json` decodes without a
range error (`jtListOk`: every numeral within float64 range), whose index 2
exists, is a JSON string, and is none of the three block tags; every other
method is uncacheable. -/
theorem isCacheable_characterization (method : String) (params : Option JTxt) :
    isCacheable method params = true ↔
      (method = "debug_traceTransaction" ∨ method = "eth_getTransactionByHash"
          ∨ method = "eth_getTransactionReceipt")
      ∨ ((method = "eth_getStorageAt" ∨ method = "eth_getProof") ∧
          ∃ xs s, params = some (JTxt.arr xs) ∧ jtListOk xs = true ∧
            xs[2]? = some (JTxt.str s) ∧
            s ≠ "latest" ∧ s ≠ "pending" ∧ s ≠ "earliest") := by
  by_cases h₁ : method = "debug_traceTransaction" ∨ method = "eth_getTransactionByHash"
      ∨ method = "eth_getTransactionReceipt"
  · simp [isCacheable, h₁]
  · by_cases h₂ : method = "eth_getStorageAt"
    · subst h₂
      simp [isCacheable, h₁, isBlockNumberSpecific_iff]
    · by_cases h₃ : method = "eth_getProof"
      · subst h₃
        simp [isCacheable, h₁, h₂, isBlockNumberSpecific_iff]
      · simp [isCacheable, h₁, h₂, h₃]

/-- The numeral 1e400 overflows float64, so `strconv.ParseFloat` reports a
range error on it. -/
theorem numLitHuge_not_ok : numLitOk numLitHuge = false := by
  rw [numLitOk, decide_eq_false_iff_not, not_lt]
  have hval : numLitHuge.val = (10 : ℚ) ^ (400 : ℕ) := by
    simp [NumLit.val, numLitHuge, digitsVal, List.foldl]
  rw [hval, abs_of_nonneg (by positivity), floatOverflowThreshold]
  have h1 : (0 : ℚ) ≤ 2 ^ (970 : ℕ) := by positivity
  have h2 : (2 : ℚ) ^ (1024 : ℕ) ≤ 2 ^ (1200 : ℕ) :=
    pow_le_pow_right₀ one_le_two (by norm_num)
  have h3 : ((2 : ℚ) ^ (1200 : ℕ)) ≤ 10 ^ (400 : ℕ) := by
    have h4 : ((2 : ℚ) ^ (1200 : ℕ)) = (8 : ℚ) ^ (400 : ℕ) := by
      rw [show (8 : ℚ) = 2 ^ (3 : ℕ) by norm_num, ← pow_mul]
    rw [h4]
    exact pow_le_pow_left₀ (by norm_num) (by norm_num) 400
  linarith

/-- C1 counterexample: for `eth_getStorageAt` with params
`[1e400, "0x0", "0x64"]` the claim's conditions hold — params parses as a
JSON array whose index 2 is the non-tag string "0x64" — yet `isCacheable`
is false, because `json.Unmarshal` into `[]interface{}` fails with a
float64 range error on 1e400 and `isBlockNumberSpecific` treats that as
uncacheable. -/
theorem isCacheable_range_counterexample :
    isCacheable "eth_getStorageAt"
        (some (JTxt.arr [JTxt.num numLitHuge, JTxt.str "0x0", JTxt.str "0x64"])) = false ∧
    [JTxt.num numLitHuge, JTxt.str "0x0", JTxt.str "0x64"][2]? = some (JTxt.str "0x64") ∧
    ¬("0x64" = "latest" ∨ "0x64" = "pending" ∨ "0x64" = "earliest") := by
  refine ⟨?_, rfl, by decide⟩
  have hlist : jtListOk [JTxt.num numLitHuge, JTxt.str "0x0", JTxt.str "0x64"] = false := by
    rw [jtListOk_cons_eq, jtOk_num, numLitHuge_not_ok, Bool.false_and]
  simp [isCacheable, isBlockNumberSpecific, unmarshalSlice, hlist]

theorem keysNodup_iff (l : List String) : keysNodup l = true ↔ l.Nodup := by
  induction l with
  | nil => simp [keysNodup]
  | cons k rest ih =>
    simp [keysNodup, Bool.and_eq_true, ih, List.elem_iff]


theorem mem_insertSorted {x : String × GoValue} (k : String) (v : GoValue)
    (m : List (String × GoValue)) (h : x ∈ insertSorted k v m) : x = (k, v) ∨ x ∈ m := by
  induction m with
  | nil => simpa [insertSorted] using h
  | cons kv₀ rest ih =>
    obtain ⟨k₀, v₀⟩ := kv₀
    by_cases h1 : k < k₀
    · simp only [insertSorted, if_pos h1] at h
      simpa using h
    · by_cases h2 : k = k₀
      · simp only [insertSorted, if_neg h1, if_pos h2] at h
        rw [List.mem_cons] at h
        rcases h with h | h
        · exact Or.inl h
        · exact Or.inr (List.mem_cons_of_mem _ h)
      · simp only [insertSorted, if_neg h1, if_neg h2] at h
        rw [List.mem_cons] at h
        rcases h with h | h
        · exact Or.inr (by simp [h])
        · rcases ih h with h3 | h3
          · exact Or.inl h3
          · exact Or.inr (List.mem_cons_of_mem _ h3)

theorem insertSorted_perm (k : String) (v : GoValue) (m : List (String × GoValue))
    (h : k ∉ m.map Prod.fst) : List.Perm (insertSorted k v m) ((k, v) :: m) := by
  induction m with
  | nil => simp [insertSorted]
  | cons kv₀ rest ih =>
    obtain ⟨k₀, v₀⟩ := kv₀
    simp only [List.map_cons, List.mem_cons] at h
    push_neg at h
    obtain ⟨hk₀, hrest⟩ := h
    by_cases h1 : k < k₀
    · simp only [insertSorted, if_pos h1]
      exact List.Perm.refl _
    · simp only [insertSorted, if_neg h1, if_neg hk₀]
      exact ((ih hrest).cons _).trans (List.Perm.swap (k, v) (k₀, v₀) rest)

theorem insertSorted_sorted (k : String) (v : GoValue) (m : List (String × GoValue))
    (h : List.Sorted keyLT m) : List.Sorted keyLT (insertSorted k v m) := by
  induction m with
  | nil => simp [insertSorted, List.Sorted]
  | cons kv₀ rest ih =>
    obtain ⟨k₀, v₀⟩ := kv₀
    rw [List.sorted_cons] at h
    obtain ⟨h₀, hrest⟩ := h
    by_cases h1 : k < k₀
    · simp only [insertSorted, if_pos h1]
      rw [List.sorted_cons]
      refine ⟨?_, List.sorted_cons.mpr ⟨h₀, hrest⟩⟩
      intro x hx
      rw [List.mem_cons] at hx
      rcases hx with hx | hx
      · simpa [keyLT, hx] using h1
      · exact lt_trans h1 (h₀ x hx)
    · by_cases h2 : k = k₀
      · simp only [insertSorted, if_neg h1, if_pos h2]
        rw [List.sorted_cons]
        refine ⟨?_, hrest⟩
        intro x hx
        have := h₀ x hx
        simpa [keyLT, h2] using this
      · have h3 : k₀ < k := by
          rcases lt_trichotomy k k₀ with hc | hc | hc
          · exact absurd hc h1
          · exact absurd hc h2
          · exact hc
        simp only [insertSorted, if_neg h1, if_neg h2]
        rw [List.sorted_cons]
        refine ⟨?_, ih hrest⟩
        intro x hx
        rcases mem_insertSorted k v rest hx with hx | hx
        · simpa [keyLT, hx] using h3
        · exact h₀ x hx

theorem foldl_insert_perm_sorted (l : List (String × GoValue)) :
    ∀ acc : List (String × GoValue), List.Sorted keyLT acc →
      ((acc ++ l).map Prod.fst).Nodup →
      List.Perm (l.foldl (fun m kv => insertSorted kv.1 kv.2 m) acc) (acc ++ l) ∧
        List.Sorted keyLT (l.foldl (fun m kv => insertSorted kv.1 kv.2 m) acc) := by
  induction l with
  | nil =>
    intro acc hacc _
    constructor
    · simp
    · simpa using hacc
  | cons kv l ih =>
    intro acc hacc hnd
    obtain ⟨k, v⟩ := kv
    have hk : k ∉ acc.map Prod.fst := by
      have hnd' : (acc.map Prod.fst ++ k :: l.map Prod.fst).Nodup := by
        simpa using hnd
      rw [List.nodup_append] at hnd'
      intro hmem
      exact hnd'.2.2 hmem (by simp)
    have hperm : List.Perm (insertSorted k v acc) ((k, v) :: acc) :=
      insertSorted_perm k v acc hk
    have hmid : List.Perm (insertSorted k v acc ++ l) (acc ++ (k, v) :: l) := by
      refine (hperm.append_right l).trans ?_
      exact (List.perm_middle).symm
    have hnd2 : ((insertSorted k v acc ++ l).map Prod.fst).Nodup := by
      rw [((hmid.map Prod.fst).nodup_iff)]
      simpa using hnd
    have hsort2 : List.Sorted keyLT (insertSorted k v acc) :=
      insertSorted_sorted k v acc hacc
    obtain ⟨p, s⟩ := ih (insertSorted k v acc) hsort2 hnd2
    constructor
    · simp only [List.foldl_cons]
      exact p.trans hmid
    · simpa [List.foldl_cons] using s

theorem mapFromPairs_perm_eq (l l' : List (String × GoValue))
    (h : List.Perm l l') (hnd : (l.map Prod.fst).Nodup) :
    mapFromPairs l = mapFromPairs l' := by
  have hnd' : (l'.map Prod.fst).Nodup := ((h.map Prod.fst).nodup_iff).mp hnd
  obtain ⟨p₁, s₁⟩ := foldl_insert_perm_sorted l [] (by simp [List.Sorted]) (by simpa)
  obtain ⟨p₂, s₂⟩ := foldl_insert_perm_sorted l' [] (by simp [List.Sorted]) (by simpa)
  have hp : List.Perm (mapFromPairs l) (mapFromPairs l') := by
    have : List.Perm (mapFromPairs l) l := by simpa [mapFromPairs] using p₁
    have h2 : List.Perm (mapFromPairs l') l' := by simpa [mapFromPairs] using p₂
    exact (this.trans h).trans h2.symm
  haveI : IsAntisymm (String × GoValue) keyLT :=
    ⟨fun a b h1 h2 => absurd (lt_trans h1 h2) (lt_irrefl _)⟩
  exact List.eq_of_perm_of_sorted hp (by simpa [mapFromPairs] using s₁)
    (by simpa [mapFromPairs] using s₂)

theorem goDecodeFields_eq_map (l : List (String × JTxt)) :
    goDecodeFields l = l.map fun kv => (kv.1, goDecode kv.2) := by
  induction l with
  | nil => rfl
  | cons kv rest ih =>
    obtain ⟨k, v⟩ := kv
    simp [goDecodeFields, ih]

theorem goDecodeFields_keys (l : List (String × JTxt)) :
    (goDecodeFields l).map Prod.fst = l.map Prod.fst := by
  induction l with
  | nil => rfl
  | cons kv rest ih =>
    obtain ⟨k, v⟩ := kv
    simp [goDecodeFields, ih]

mutual

theorem keyOrderEquiv_goDecode : ∀ {t₁ t₂ : JTxt}, KeyOrderEquiv t₁ t₂ →
    nodupKeysT t₁ = true → goDecode t₁ = goDecode t₂
  | _, _, KeyOrderEquiv.null, _ => rfl
  | _, _, KeyOrderEquiv.boolean _, _ => rfl
  | _, _, KeyOrderEquiv.num _, _ => rfl
  | _, _, KeyOrderEquiv.str _, _ => rfl
  | _, _, KeyOrderEquiv.arr hl, hn => by
    simp only [goDecode]
    exact congrArg GoValue.arr
      (keyOrderEquivList_goDecode hl (by simpa [nodupKeysT] using hn))
  | _, _, @KeyOrderEquiv.obj kvs₁ kvs₂ kvs₃ hf hp, hn => by
    simp only [goDecode]
    simp only [nodupKeysT, Bool.and_eq_true] at hn
    obtain ⟨hk, hfnd⟩ := hn
    have h12 : goDecodeFields kvs₁ = goDecodeFields kvs₂ :=
      keyOrderEquivFields_goDecode hf hfnd
    have h23 : List.Perm (goDecodeFields kvs₂) (goDecodeFields kvs₃) := by
      rw [goDecodeFields_eq_map, goDecodeFields_eq_map]
      exact hp.map _
    have hnd : ((goDecodeFields kvs₂).map Prod.fst).Nodup := by
      rw [← h12, goDecodeFields_keys]
      exact (keysNodup_iff _).mp hk
    rw [h12, mapFromPairs_perm_eq _ _ h23 hnd]

theorem keyOrderEquivList_goDecode : ∀ {l₁ l₂ : List JTxt}, KeyOrderEquivList l₁ l₂ →
    nodupKeysList l₁ = true → goDecodeList l₁ = goDecodeList l₂
  | _, _, KeyOrderEquivList.nil, _ => rfl
  | _, _, KeyOrderEquivList.cons hx hl, hn => by
    simp only [nodupKeysList, Bool.and_eq_true] at hn
    simp only [goDecodeList]
    rw [keyOrderEquiv_goDecode hx hn.1, keyOrderEquivList_goDecode hl hn.2]

theorem keyOrderEquivFields_goDecode : ∀ {f₁ f₂ : List (String × JTxt)},
    KeyOrderEquivFields f₁ f₂ → nodupKeysFields f₁ = true →
    goDecodeFields f₁ = goDecodeFields f₂
  | _, _, KeyOrderEquivFields.nil, _ => rfl
  | _, _, @KeyOrderEquivFields.cons k v w rest₁ rest₂ hv hr, hn => by
    simp only [nodupKeysFields, Bool.and_eq_true] at hn
    simp only [goDecodeFields]
    rw [keyOrderEquiv_goDecode hv hn.1, keyOrderEquivFields_goDecode hr hn.2]

end

theorem jtListOk_eq_all (xs : List JTxt) : jtListOk xs = xs.all jtOk := by
  induction xs with
  | nil => rfl
  | cons x xs ih => simp [jtListOk, ih]

theorem jtFieldsOk_eq_all (kvs : List (String × JTxt)) :
    jtFieldsOk kvs = kvs.all fun kv => jtOk kv.2 := by
  induction kvs with
  | nil => rfl
  | cons kv rest ih =>
    obtain ⟨k, v⟩ := kv
    simp [jtFieldsOk, ih]

theorem all_perm_eq {α : Type} (p : α → Bool) {l₁ l₂ : List α}
    (h : List.Perm l₁ l₂) : l₁.all p = l₂.all p := by
  cases h1 : l₁.all p <;> cases h2 : l₂.all p <;> try rfl
  · rw [List.all_eq_true] at h2
    rw [List.all_eq_false] at h1
    obtain ⟨x, hx, hpx⟩ := h1
    exact absurd (h2 x (h.mem_iff.mp hx)) (by simp [hpx])
  · rw [List.all_eq_true] at h1
    rw [List.all_eq_false] at h2
    obtain ⟨x, hx, hpx⟩ := h2
    exact absurd (h1 x (h.mem_iff.mpr hx)) (by simp [hpx])

mutual

theorem keyOrderEquiv_jtOk : ∀ {t₁ t₂ : JTxt}, KeyOrderEquiv t₁ t₂ →
    jtOk t₁ = jtOk t₂
  | _, _, KeyOrderEquiv.null => rfl
  | _, _, KeyOrderEquiv.boolean _ => rfl
  | _, _, KeyOrderEquiv.num _ => rfl
  | _, _, KeyOrderEquiv.str _ => rfl
  | _, _, KeyOrderEquiv.arr hl => by
    simp only [jtOk]
    exact keyOrderEquivList_jtOk hl
  | _, _, @KeyOrderEquiv.obj kvs₁ kvs₂ kvs₃ hf hp => by
    simp only [jtOk]
    rw [keyOrderEquivFields_jtOk hf, jtFieldsOk_eq_all, jtFieldsOk_eq_all]
    exact all_perm_eq _ hp

theorem keyOrderEquivList_jtOk : ∀ {l₁ l₂ : List JTxt}, KeyOrderEquivList l₁ l₂ →
    jtListOk l₁ = jtListOk l₂
  | _, _, KeyOrderEquivList.nil => rfl
  | _, _, KeyOrderEquivList.cons hx hl => by
    simp only [jtListOk]
    rw [keyOrderEquiv_jtOk hx, keyOrderEquivList_jtOk hl]

theorem keyOrderEquivFields_jtOk : ∀ {f₁ f₂ : List (String × JTxt)},
    KeyOrderEquivFields f₁ f₂ → jtFieldsOk f₁ = jtFieldsOk f₂
  | _, _, KeyOrderEquivFields.nil => rfl
  | _, _, @KeyOrderEquivFields.cons k v w rest₁ rest₂ hv hr => by
    simp only [jtFieldsOk]
    rw [keyOrderEquiv_jtOk hv, keyOrderEquivFields_jtOk hr]

end

/-- C2: key derivation is a pure function (hence deterministic), yields
identical keys for params that differ only by recursive JSON object key
order (whitespace differences are already identified at the `JTxt` level,
see the module comment), and treats empty or missing params as the empty
array.  Objects are required to have distinct keys — with duplicate keys the
Go map drops entries and "key order" is not semantically meaningful. -/
theorem generateCacheKey_canonical (method : String) (p₁ p₂ : Option JTxt)
    (h : ParamsEquiv p₁ p₂) (hn : paramsNodupKeys p₁ = true) :
    generateCacheKey method p₁ = generateCacheKey method p₂ ∧
      generateCacheKey method none = generateCacheKey method (some (JTxt.arr [])) := by
  refine ⟨?_, rfl⟩
  cases p₁ with
  | none =>
    cases p₂ with
    | none => rfl
    | some t => exact absurd h (by simp [ParamsEquiv])
  | some t₁ =>
    cases p₂ with
    | none => exact absurd h (by simp [ParamsEquiv])
    | some t₂ =>
      have he : KeyOrderEquiv t₁ t₂ := h
      have hnd : nodupKeysT t₁ = true := hn
      cases he with
      | null => rfl
      | boolean b => rfl
      | num lit => rfl
      | str s => rfl
      | arr hl =>
        simp only [generateCacheKey, unmarshalSlice]
        rw [keyOrderEquivList_jtOk hl,
          keyOrderEquivList_goDecode hl (by simpa [nodupKeysT] using hnd)]
      | obj hf hp => rfl

/-- Witness for C2 at a concrete pair of params differing by object key
order. -/
theorem generateCacheKey_canonical_witness :
    paramsNodupKeys (some (JTxt.arr [JTxt.obj [("b", JTxt.str "1"), ("a", JTxt.str "2")]])) = true ∧
    generateCacheKey "eth_getProof"
        (some (JTxt.arr [JTxt.obj [("b", JTxt.str "1"), ("a", JTxt.str "2")]])) =
      generateCacheKey "eth_getProof"
        (some (JTxt.arr [JTxt.obj [("a", JTxt.str "2"), ("b", JTxt.str "1")]])) :=
  ⟨by decide,
    (generateCacheKey_canonical "eth_getProof"
      (some (JTxt.arr [JTxt.obj [("b", JTxt.str "1"), ("a", JTxt.str "2")]]))
      (some (JTxt.arr [JTxt.obj [("a", JTxt.str "2"), ("b", JTxt.str "1")]]))
      (KeyOrderEquiv.arr (KeyOrderEquivList.cons
        (KeyOrderEquiv.obj
          (KeyOrderEquivFields.cons (KeyOrderEquiv.str "1")
            (KeyOrderEquivFields.cons (KeyOrderEquiv.str "2") KeyOrderEquivFields.nil))
          (List.Perm.swap ("a", JTxt.str "2") ("b", JTxt.str "1") []))
        KeyOrderEquivList.nil))
      (by decide)).1⟩

/-- The numerals 1 and 1.0 denote the same exact value. -/
theorem numLitOne_val_eq : numLitOne.val = numLitOnePointZero.val := by
  norm_num [NumLit.val, numLitOne, numLitOnePointZero, digitsVal]

/-- The numerals 1 and 1.0 parse to the same float64 datum. -/
theorem numLitOne_dec_eq : numLitOne.dec = numLitOnePointZero.dec := by
  have h := numLitOne_val_eq
  simp only [NumLit.dec]
  rw [h]
  rfl

/-- C6 counterexample: the numerals 1 and 1.0 are distinct literals, yet
they derive identical cache keys (equal hash preimages, hence equal SHA-256
keys), because `encoding/json` decodes both to the float64 datum 1 before
normalisation — refuting the claim that they derive distinct keys. -/
theorem numeral_normalisation_counterexample :
    numLitOne ≠ numLitOnePointZero ∧
    generateCacheKey "eth_getTransactionByHash" (some (JTxt.arr [JTxt.num numLitOne])) =
      generateCacheKey "eth_getTransactionByHash"
        (some (JTxt.arr [JTxt.num numLitOnePointZero])) := by
  constructor
  · decide
  · have hdec : numLitOne.dec = numLitOnePointZero.dec := numLitOne_dec_eq
    have hok : numLitOk numLitOne = numLitOk numLitOnePointZero := by
      rw [numLitOk, numLitOk, numLitOne_val_eq]
    simp [generateCacheKey, unmarshalSlice, jtListOk, jtOk, hok, goDecodeList,
      goDecode, hdec]

/-- C6 amended: key derivation decodes each numeral to its float64 datum
(value, with the sign of a zero) before canonicalisation, so any two
numerals parsing to the same datum — such as 1 and 1.0 — derive identical
keys; numeric normalisation does happen, at decode time.  Distinct data
such as -0.0 and 0 are not identified. -/
theorem numeral_value_determines_key (method : String) (a b : NumLit)
    (rest : List JTxt) (h : a.dec = b.dec) :
    generateCacheKey method (some (JTxt.arr (JTxt.num a :: rest))) =
      generateCacheKey method (some (JTxt.arr (JTxt.num b :: rest))) := by
  have hv : a.val = b.val := congrArg F64.val h
  have hok : numLitOk a = numLitOk b := by rw [numLitOk, numLitOk, hv]
  simp [generateCacheKey, unmarshalSlice, jtListOk, jtOk, hok, goDecodeList,
    goDecode, h]

/-- Witness for the amended C6 at the numerals 1 and 1.0. -/
theorem numeral_value_determines_key_witness :
    numLitOne.dec = numLitOnePointZero.dec ∧
    generateCacheKey "debug_traceTransaction" (some (JTxt.arr [JTxt.num numLitOne])) =
      generateCacheKey "debug_traceTransaction"
        (some (JTxt.arr [JTxt.num numLitOnePointZero])) :=
  ⟨numLitOne_dec_eq,
    numeral_value_determines_key "debug_traceTransaction" numLitOne numLitOnePointZero []
      numLitOne_dec_eq⟩

/-- C10 counterexample: params `null` is present (non-empty) and is not a
JSON array, yet `generateCacheKey` succeeds — `json.Unmarshal` accepts JSON
null for a slice, leaving it nil, which derives the same key as the empty
array.  This refutes the claimed "error iff non-empty and not an array". -/
theorem generateCacheKey_null_counterexample :
    (generateCacheKey "eth_getTransactionByHash" (some JTxt.null) =
      Except.ok ("eth_getTransactionByHash" ++ cacheKeyBody [])) ∧
    (match JTxt.null with | JTxt.arr _ => true | _ => false) = false ∧
    exceptIsOk (generateCacheKey "eth_getTransactionByHash"
      (some (JTxt.arr [JTxt.num numLitHuge]))) = false := by
  refine ⟨rfl, rfl, ?_⟩
  simp [generateCacheKey, unmarshalSlice, jtListOk, jtOk, numLitHuge_not_ok,
    exceptIsOk]

/-- C10 amended: `generateCacheKey` fails exactly when params is present
and the slice decode rejects it — it is neither JSON null nor a JSON array
all of whose numerals are within float64 range (`paramsRejected`); and
whenever key derivation fails the request is forwarded upstream with no
store read and no store write, even when its method is in the
always-cacheable set. -/
theorem generateCacheKey_error_spec (m : String) (p : Option JTxt)
    (lim readErr writeErr : Bool) (up : UpstreamBody) (st : List (String × String)) :
    exceptIsOk (generateCacheKey m p) = !(paramsRejected p) ∧
    (exceptIsOk (generateCacheKey m p) = false →
      (serve m p lim readErr writeErr up st).1.storeReads = 0 ∧
      (serve m p lim readErr writeErr up st).1.storeWrites = 0 ∧
      (serve m p lim readErr writeErr up st).1.upstreamCalls = 1 ∧
      (serve m p lim readErr writeErr up st).2 = st) := by
  constructor
  · cases p with
    | none => rfl
    | some t =>
      cases t with
      | arr xs =>
        cases hok : jtListOk xs <;>
          simp [generateCacheKey, unmarshalSlice, exceptIsOk, paramsRejected,
            sliceDecodable, hok]
      | null => rfl
      | boolean b => rfl
      | num lit => rfl
      | str s => rfl
      | obj kvs => rfl
  intro herr
  cases hgen : generateCacheKey m p with
  | ok k => rw [hgen] at herr; exact absurd herr (by simp [exceptIsOk])
  | error e =>
    by_cases hc : isCacheable m p
    · cases henv : up.envelope with
      | none =>
        simp [serve, hc, hgen, forwardUpstream, writeBack, henv]
      | some env =>
        cases herr2 : env.error with
        | none => simp [serve, hc, hgen, forwardUpstream, writeBack, henv, herr2]
        | some e₂ => simp [serve, hc, hgen, forwardUpstream, writeBack, henv, herr2]
    · cases henv : up.envelope with
      | none => simp [serve, hc, forwardUpstream, writeBack, henv]
      | some env => simp [serve, hc, forwardUpstream, writeBack, henv]

/-- Witness for the amended C10 at object-valued params under an
always-cacheable method. -/
theorem generateCacheKey_error_spec_witness :
    (exceptIsOk (generateCacheKey "eth_getTransactionByHash" (some (JTxt.obj []))) =
        !(paramsRejected (some (JTxt.obj [])))) ∧
    exceptIsOk (generateCacheKey "eth_getTransactionByHash" (some (JTxt.obj []))) = false ∧
    ((serve "eth_getTransactionByHash" (some (JTxt.obj [])) false false false
          ⟨"resp", none⟩ []).1.storeReads = 0 ∧
      (serve "eth_getTransactionByHash" (some (JTxt.obj [])) false false false
          ⟨"resp", none⟩ []).1.storeWrites = 0 ∧
      (serve "eth_getTransactionByHash" (some (JTxt.obj [])) false false false
          ⟨"resp", none⟩ []).1.upstreamCalls = 1 ∧
      (serve "eth_getTransactionByHash" (some (JTxt.obj [])) false false false
          ⟨"resp", none⟩ []).2 = []) :=
  ⟨(generateCacheKey_error_spec "eth_getTransactionByHash" (some (JTxt.obj []))
      false false false ⟨"resp", none⟩ []).1,
    by decide,
    (generateCacheKey_error_spec "eth_getTransactionByHash" (some (JTxt.obj []))
      false false false ⟨"resp", none⟩ []).2 (by decide)⟩

/-- C9 counterexample: string-valued params under an always-cacheable method
make key derivation fail, so the lookup yields no stored value, yet the miss
counter is not incremented (the increment sits inside the successful-key
branch of ServeHTTP) — refuting the claim that every failed lookup of a
cacheable request increments the miss counter. -/
theorem miss_counter_counterexample :
    isCacheable "eth_getTransactionByHash" (some (JTxt.str "x")) = true ∧
    exceptIsOk (generateCacheKey "eth_getTransactionByHash" (some (JTxt.str "x"))) = false ∧
    (serve "eth_getTransactionByHash" (some (JTxt.str "x")) false false false
        ⟨"resp", none⟩ []).1.missInc = 0 := by
  decide

/-- C9 amended: the per-method miss counter is incremented exactly when the
method is cacheable, key derivation succeeds, and the lookup yields no
stored value (store miss or store read error); a key-derivation failure
increments nothing. -/
theorem miss_counter_iff (m : String) (p : Option JTxt) (lim readErr writeErr : Bool)
    (up : UpstreamBody) (st : List (String × String)) :
    (serve m p lim readErr writeErr up st).1.missInc = 1 ↔
      (isCacheable m p = true ∧ ∃ k, generateCacheKey m p = Except.ok k ∧
        (readErr = true ∨ lookupStore st k = none)) := by
  by_cases hc : isCacheable m p
  · cases hgen : generateCacheKey m p with
    | ok key =>
      cases readErr with
      | true => simp [serve, hc, hgen, forwardUpstream, writeBack]
      | false =>
        cases hl : lookupStore st key with
        | some v => simp [serve, hc, hgen, hl]
        | none => simp [serve, hc, hgen, hl, forwardUpstream, writeBack]
    | error e => simp [serve, hc, hgen, forwardUpstream, writeBack]
  · simp [serve, hc, forwardUpstream, writeBack]

/-- C7: a cacheable request that goes upstream and receives a body parsing
as an envelope with a non-null `error` causes no cache write (the store is
unchanged, zero rows written) and the upstream body is returned verbatim
with HTTP status 200. -/
theorem upstream_error_not_cached (m : String) (p : Option JTxt)
    (lim readErr writeErr : Bool) (raw : String) (env : Envelope) (e : GoValue)
    (st : List (String × String))
    (hc : isCacheable m p = true)
    (herr : env.error = some e)
    (hmiss : ∀ k, generateCacheKey m p = Except.ok k →
      readErr = true ∨ lookupStore st k = none) :
    (serve m p lim readErr writeErr ⟨raw, some env⟩ st).2 = st ∧
    (serve m p lim readErr writeErr ⟨raw, some env⟩ st).1.storeWrites = 0 ∧
    (serve m p lim readErr writeErr ⟨raw, some env⟩ st).1.status = 200 ∧
    (serve m p lim readErr writeErr ⟨raw, some env⟩ st).1.body = RespBody.upstream raw := by
  cases hgen : generateCacheKey m p with
  | error e₂ => simp [serve, hc, hgen, forwardUpstream, writeBack, herr]
  | ok key =>
    cases readErr with
    | true => simp [serve, hc, hgen, forwardUpstream, writeBack, herr]
    | false =>
      rcases hmiss key hgen with h | h
      · exact absurd h (by simp)
      · simp [serve, hc, hgen, h, forwardUpstream, writeBack, herr]

/-- Witness for C7 at a concrete erroring upstream envelope. -/
theorem upstream_error_not_cached_witness :
    isCacheable "eth_getTransactionByHash" (some (JTxt.arr [])) = true ∧
    ((serve "eth_getTransactionByHash" (some (JTxt.arr [])) false false false
        ⟨"rawbody", some ⟨"", some (GoValue.str "boom")⟩⟩ []).2 = [] ∧
      (serve "eth_getTransactionByHash" (some (JTxt.arr [])) false false false
          ⟨"rawbody", some ⟨"", some (GoValue.str "boom")⟩⟩ []).1.storeWrites = 0 ∧
      (serve "eth_getTransactionByHash" (some (JTxt.arr [])) false false false
          ⟨"rawbody", some ⟨"", some (GoValue.str "boom")⟩⟩ []).1.status = 200 ∧
      (serve "eth_getTransactionByHash" (some (JTxt.arr [])) false false false
          ⟨"rawbody", some ⟨"", some (GoValue.str "boom")⟩⟩ []).1.body =
        RespBody.upstream "rawbody") :=
  ⟨by decide,
    upstream_error_not_cached "eth_getTransactionByHash" (some (JTxt.arr []))
      false false false "rawbody" ⟨"", some (GoValue.str "boom")⟩ (GoValue.str "boom") []
      (by decide) rfl (fun k _ => Or.inr rfl)⟩

theorem lookup_putStore_self (st : List (String × String)) (k v : String) :
    lookupStore (putStore st k v) k = some v := by
  induction st with
  | nil => simp [putStore, lookupStore]
  | cons kv rest ih =>
    obtain ⟨k₀, w⟩ := kv
    by_cases h : k₀ = k
    · simp [putStore, h, lookupStore]
    · simp [putStore, h, lookupStore, ih]

theorem serve_hit (m : String) (p : Option JTxt) (lim writeErr : Bool)
    (up : UpstreamBody) (st : List (String × String)) (key res : String)
    (hc : isCacheable m p = true) (hk : generateCacheKey m p = Except.ok key)
    (hl : lookupStore st key = some res) :
    serve m p lim false writeErr up st = (⟨200, RespBody.hit res, 0, 0, 1, 0, 1, 0⟩, st) := by
  simp [serve, hc, hk, hl]

theorem serve_miss_writes (m : String) (p : Option JTxt) (lim : Bool)
    (up : UpstreamBody) (st : List (String × String)) (key : String) (env : Envelope)
    (hc : isCacheable m p = true) (hk : generateCacheKey m p = Except.ok key)
    (hl : lookupStore st key = none)
    (henv : up.envelope = some env) (herr : env.error = none) :
    (serve m p lim false false up st).2 = putStore st key env.result ∧
    (serve m p lim false false up st).1.upstreamCalls = 1 := by
  simp [serve, hc, hk, hl, forwardUpstream, writeBack, henv, herr]

theorem serveAll_hits (lim : Bool) (key res : String)
    (reqs : List (String × Option JTxt × UpstreamBody)) (st : List (String × String))
    (hl : lookupStore st key = some res)
    (hreqs : ∀ r ∈ reqs, isCacheable r.1 r.2.1 = true ∧
      generateCacheKey r.1 r.2.1 = Except.ok key) :
    serveAll lim reqs st = (0, 0, st) := by
  induction reqs with
  | nil => rfl
  | cons r rest ih =>
    obtain ⟨m, p, up⟩ := r
    obtain ⟨hc, hk⟩ := hreqs (m, p, up) (by simp)
    have hs := serve_hit m p lim false up st key res hc hk hl
    simp only [serveAll, hs]
    have := ih fun r hr => hreqs r (List.mem_cons_of_mem _ hr)
    simp [this]

/-- C3: once the first dispatch of a cacheable request has gone upstream and
been written back, every run of subsequent dispatches with the same
canonical key (byte-equal bodies parse to identical `JTxt`, so they are
covered) makes zero upstream calls and zero rate-limiter waits, and leaves
the store unchanged — until an eviction removes the entry (nothing in the
dispatch path does).  Store reads are assumed to succeed ("answered from the
store"); a read failure is treated as a miss by the handler. -/
theorem cacheable_idempotent (m : String) (p : Option JTxt) (lim : Bool)
    (st₀ : List (String × String)) (up₁ : UpstreamBody) (env : Envelope) (key : String)
    (reqs : List (String × Option JTxt × UpstreamBody))
    (hc : isCacheable m p = true) (hk : generateCacheKey m p = Except.ok key)
    (hmiss : lookupStore st₀ key = none)
    (henv : up₁.envelope = some env) (herr : env.error = none)
    (hreqs : ∀ r ∈ reqs, isCacheable r.1 r.2.1 = true ∧
      generateCacheKey r.1 r.2.1 = Except.ok key) :
    (serve m p lim false false up₁ st₀).1.upstreamCalls = 1 ∧
    lookupStore (serve m p lim false false up₁ st₀).2 key = some env.result ∧
    serveAll lim reqs (serve m p lim false false up₁ st₀).2 =
      (0, 0, (serve m p lim false false up₁ st₀).2) := by
  obtain ⟨hst, hup⟩ := serve_miss_writes m p lim up₁ st₀ key env hc hk hmiss henv herr
  have hlook : lookupStore (serve m p lim false false up₁ st₀).2 key = some env.result := by
    rw [hst]; exact lookup_putStore_self st₀ key env.result
  exact ⟨hup, hlook, serveAll_hits lim key env.result reqs _ hlook hreqs⟩

/-- Witness for C3: a first dispatch against the empty store followed by one
identical dispatch. -/
theorem cacheable_idempotent_witness :
    isCacheable "eth_getTransactionByHash" (some (JTxt.arr [JTxt.str "0x123"])) = true ∧
    ((serve "eth_getTransactionByHash" (some (JTxt.arr [JTxt.str "0x123"])) true false false
        ⟨"up", some ⟨"res", none⟩⟩ []).1.upstreamCalls = 1 ∧
      lookupStore (serve "eth_getTransactionByHash" (some (JTxt.arr [JTxt.str "0x123"]))
          true false false ⟨"up", some ⟨"res", none⟩⟩ []).2
          "eth_getTransactionByHash[\"0x123\"]" = some "res" ∧
      serveAll true
          [("eth_getTransactionByHash", some (JTxt.arr [JTxt.str "0x123"]),
            ⟨"up2", some ⟨"res2", none⟩⟩)]
          (serve "eth_getTransactionByHash" (some (JTxt.arr [JTxt.str "0x123"])) true false
            false ⟨"up", some ⟨"res", none⟩⟩ []).2 =
        (0, 0, (serve "eth_getTransactionByHash" (some (JTxt.arr [JTxt.str "0x123"])) true
          false false ⟨"up", some ⟨"res", none⟩⟩ []).2)) :=
  ⟨by decide,
    cacheable_idempotent "eth_getTransactionByHash" (some (JTxt.arr [JTxt.str "0x123"]))
      true [] ⟨"up", some ⟨"res", none⟩⟩ ⟨"res", none⟩
      "eth_getTransactionByHash[\"0x123\"]"
      [("eth_getTransactionByHash", some (JTxt.arr [JTxt.str "0x123"]),
        ⟨"up2", some ⟨"res2", none⟩⟩)]
      (by decide) rfl rfl rfl rfl
      (by
        intro r hr
        simp only [List.mem_singleton] at hr
        subst hr
        exact ⟨by decide, rfl⟩)⟩

theorem rowLE_refl (r : Row) : rowLE r r = true := by
  simp [rowLE]

theorem rowLT_rowLE {r s : Row} (h : rowLT r s = true) : rowLE r s = true := by
  simp only [rowLT, rowLE, Bool.or_eq_true, Bool.and_eq_true, decide_eq_true_eq] at *
  omega

theorem rowLT_not_rowLE {r s : Row} (h : rowLT r s = true) : rowLE s r = false := by
  simp only [rowLT, rowLE, Bool.or_eq_true, Bool.and_eq_true, decide_eq_true_eq,
    Bool.not_eq_true] at *
  rw [Bool.or_eq_false_iff, Bool.and_eq_false_iff]
  simp only [decide_eq_false_iff_not, decide_eq_true_eq]
  omega

theorem itemSize_pos (r : Row) : 0 < itemSize r := by
  simp only [itemSize]
  omega

theorem runningTotal_nonneg (l : List Row) (r : Row) : 0 ≤ runningTotal l r := by
  refine List.sum_nonneg ?_
  intro x hx
  obtain ⟨s, _, rfl⟩ := List.mem_map.mp hx
  exact le_of_lt (itemSize_pos s)

theorem runningTotal_cons (r x : Row) (rest : List Row) :
    runningTotal (r :: rest) x =
      (if rowLE r x then itemSize r else 0) + runningTotal rest x := by
  simp only [runningTotal, List.filter_cons]
  cases h : rowLE r x <;> simp

theorem self_le_runningTotal {x : Row} {l : List Row} (hx : x ∈ l) :
    itemSize x ≤ runningTotal l x := by
  induction l with
  | nil => cases hx
  | cons y rest ih =>
    rw [List.mem_cons] at hx
    rw [runningTotal_cons]
    rcases hx with hx | hx
    · subst hx
      rw [rowLE_refl]
      simp
      exact runningTotal_nonneg rest x
    · have h1 : (0 : Int) ≤ (if rowLE y x then itemSize y else 0) := by
        split
        · exact le_of_lt (itemSize_pos y)
        · exact le_refl 0
      have := ih hx
      omega

theorem prune_scan_aux (table : List Row) :
    ∀ acc b : Int, List.Pairwise (fun r s => rowLT r s = true) table →
      (table.filter fun x => decide (acc + (runningTotal table x - itemSize x) < b)) =
        scanDeleted table acc b := by
  induction table with
  | nil => intro acc b _; rfl
  | cons r rest ih =>
    intro acc b hp
    rw [List.pairwise_cons] at hp
    obtain ⟨hr, hrest⟩ := hp
    have hRTr : runningTotal (r :: rest) r = itemSize r := by
      rw [runningTotal_cons, rowLE_refl]
      have hz : rest.filter (fun s => rowLE s r) = [] := by
        rw [List.filter_eq_nil_iff]
        intro a ha
        rw [rowLT_not_rowLE (hr a ha)]
        simp
      simp [runningTotal, hz]
    have hele : ∀ x ∈ rest,
        runningTotal (r :: rest) x = itemSize r + runningTotal rest x := by
      intro x hx
      rw [runningTotal_cons, rowLT_rowLE (hr x hx)]
      simp
    have hstep : (rest.filter fun x =>
          decide (acc + (runningTotal (r :: rest) x - itemSize x) < b)) =
        rest.filter fun x =>
          decide ((acc + itemSize r) + (runningTotal rest x - itemSize x) < b) := by
      apply List.filter_congr
      intro x hx
      rw [hele x hx, decide_eq_decide]
      omega
    by_cases hacc : acc < b
    · have hcond : decide (acc + (runningTotal (r :: rest) r - itemSize r) < b) = true := by
        rw [hRTr]
        simpa using hacc
      rw [List.filter_cons, hcond, if_pos rfl, hstep, ih (acc + itemSize r) b hrest,
        scanDeleted, if_pos hacc]
    · rw [scanDeleted, if_neg hacc, List.filter_eq_nil_iff]
      intro x hx
      rw [List.mem_cons] at hx
      simp only [decide_eq_true_eq]
      rcases hx with rfl | hx
      · rw [hRTr]
        omega
      · rw [hele x hx]
        have h2 := self_le_runningTotal hx
        have h3 := itemSize_pos r
        omega

theorem kept_scan_aux (table : List Row) :
    ∀ acc b : Int, List.Pairwise (fun r s => rowLT r s = true) table →
      (table.filter fun x => !decide (acc + (runningTotal table x - itemSize x) < b)) =
        scanKept table acc b := by
  induction table with
  | nil => intro acc b _; rfl
  | cons r rest ih =>
    intro acc b hp
    rw [List.pairwise_cons] at hp
    obtain ⟨hr, hrest⟩ := hp
    have hRTr : runningTotal (r :: rest) r = itemSize r := by
      rw [runningTotal_cons, rowLE_refl]
      have hz : rest.filter (fun s => rowLE s r) = [] := by
        rw [List.filter_eq_nil_iff]
        intro a ha
        rw [rowLT_not_rowLE (hr a ha)]
        simp
      simp [runningTotal, hz]
    have hele : ∀ x ∈ rest,
        runningTotal (r :: rest) x = itemSize r + runningTotal rest x := by
      intro x hx
      rw [runningTotal_cons, rowLT_rowLE (hr x hx)]
      simp
    have hstep : (rest.filter fun x =>
          !decide (acc + (runningTotal (r :: rest) x - itemSize x) < b)) =
        rest.filter fun x =>
          !decide ((acc + itemSize r) + (runningTotal rest x - itemSize x) < b) := by
      apply List.filter_congr
      intro x hx
      rw [hele x hx]
      congr 1
      rw [decide_eq_decide]
      omega
    by_cases hacc : acc < b
    · have hcond : (!decide (acc + (runningTotal (r :: rest) r - itemSize r) < b)) = false := by
        rw [hRTr]
        simpa using hacc
      rw [List.filter_cons, hcond, if_neg (by simp), hstep, ih (acc + itemSize r) b hrest,
        scanKept, if_pos hacc]
    · rw [scanKept, if_neg hacc]
      rw [List.filter_eq_self]
      intro x hx
      rw [List.mem_cons] at hx
      simp only [Bool.not_eq_eq_eq_not, Bool.not_true, decide_eq_false_iff_not, not_lt]
      rcases hx with rfl | hx
      · rw [hRTr]
        omega
      · rw [hele x hx]
        have h2 := self_le_runningTotal hx
        have h3 := itemSize_pos r
        omega

theorem scanKept_freed (table : List Row) :
    ∀ acc b : Int, scanKept table acc b ≠ [] →
      b ≤ acc + ((scanDeleted table acc b).map itemSize).sum := by
  induction table with
  | nil => intro acc b h; exact absurd rfl h
  | cons r rest ih =>
    intro acc b h
    by_cases hacc : acc < b
    · rw [scanKept, if_pos hacc] at h
      have := ih (acc + itemSize r) b h
      rw [scanDeleted, if_pos hacc]
      simp only [List.map_cons, List.sum_cons]
      omega
    · rw [scanDeleted, if_neg hacc]
      simp only [List.map_nil, List.sum_nil]
      omega

theorem scanDeleted_last (table : List Row) :
    ∀ acc b : Int, ∀ r : Row, (scanDeleted table acc b).getLast? = some r →
      acc + ((scanDeleted table acc b).map itemSize).sum < b + itemSize r := by
  induction table with
  | nil => intro acc b r h; simp [scanDeleted] at h
  | cons x rest ih =>
    intro acc b r h
    by_cases hacc : acc < b
    · rw [scanDeleted, if_pos hacc] at h ⊢
      cases hd : scanDeleted rest (acc + itemSize x) b with
      | nil =>
        rw [hd] at h
        simp only [List.getLast?_singleton, Option.some.injEq] at h
        subst h
        simp only [List.map_cons, List.map_nil, List.sum_cons, List.sum_nil]
        omega
      | cons y ys =>
        rw [hd, List.getLast?_cons_cons, ← hd] at h
        have hlast := ih (acc + itemSize x) b r h
        rw [← hd]
        simp only [List.map_cons, List.sum_cons]
        omega
    · rw [scanDeleted, if_neg hacc] at h
      simp at h

/-- C4 counterexample: two rows tied on both `last_accessed_at` and
`result_length` (peers in the SQL window ordering), size 100 each, with
`bytes_to_free = 5`.  The query's peer-inclusive running total is 200 for
both rows, so it deletes nothing and returns 0, while the claimed
scan-order prefix rule deletes the first row of either tie-break order. -/
theorem pruneCache_tie_counterexample :
    pruneDeleted [rowTieA, rowTieB] 5 = [] ∧
    pruneFreed [rowTieA, rowTieB] 5 = 0 ∧
    scanDeleted [rowTieA, rowTieB] 0 5 = [rowTieA] ∧
    scanDeleted [rowTieB, rowTieA] 0 5 = [rowTieB] := by
  decide

/-- C4 amended: on any table with no two rows tied on both
`last_accessed_at` and `result_length` (stated here as a table listed in
strictly increasing scan order), `PruneCache` deletes exactly the rows whose
scan-order prefix sum of `(result_length + 64)`, excluding the row's own
size, is strictly below `bytes_to_free`, and returns the sum of
`(result_length + 64)` over the deleted rows.  With tied rows the window
running total is peer-inclusive and deviates from any scan order. -/
theorem pruneCache_scan_order (table : List Row) (b : Int)
    (hsort : List.Pairwise (fun r s => rowLT r s = true) table) :
    pruneDeleted table b = scanDeleted table 0 b ∧
    pruneFreed table b = ((scanDeleted table 0 b).map itemSize).sum := by
  have hcond : ∀ x ∈ table,
      pruneCond table b x = decide (0 + (runningTotal table x - itemSize x) < b) := by
    intro x _
    rw [pruneCond, decide_eq_decide]
    omega
  have hdel : pruneDeleted table b = scanDeleted table 0 b := by
    rw [pruneDeleted, List.filter_congr hcond, prune_scan_aux table 0 b hsort]
  exact ⟨hdel, by rw [pruneFreed, hdel]⟩

/-- Witness for the amended C4 on a strictly ordered two-row table. -/
theorem pruneCache_scan_order_witness :
    List.Pairwise (fun r s => rowLT r s = true) [rowOldC, rowNewD] ∧
    (pruneDeleted [rowOldC, rowNewD] 150 = scanDeleted [rowOldC, rowNewD] 0 150 ∧
      pruneFreed [rowOldC, rowNewD] 150 =
        ((scanDeleted [rowOldC, rowNewD] 0 150).map itemSize).sum) :=
  ⟨by decide, pruneCache_scan_order [rowOldC, rowNewD] 150 (by decide)⟩

/-- C5 counterexample: two strictly ordered rows of size 100 each with
`bytes_to_free = 150`.  The prefix of rows whose cumulative size stays
strictly below 150 is just the first row, but the query deletes both rows
and frees 200 ≥ 150 — it over-frees rather than under-frees. -/
theorem pruneCache_cumulative_counterexample :
    pruneDeleted [rowOldC, rowNewD] 150 = [rowOldC, rowNewD] ∧
    cumulScan [rowOldC, rowNewD] 0 150 = [rowOldC] ∧
    pruneFreed [rowOldC, rowNewD] 150 = 200 := by
  decide

/-- C5 amended: on a strictly ordered table the deleted rows are the prefix
whose prefix sum excluding each row's own size stays strictly below
`bytes_to_free` — one row beyond the prefix with cumulative size below the
bound, when such a row exists.  Hence prune frees at least `bytes_to_free`
whenever some row survives, over-freeing by strictly less than the last
deleted row's size; it under-frees only when it empties the table. -/
theorem pruneCache_overfree (table : List Row) (b : Int)
    (hsort : List.Pairwise (fun r s => rowLT r s = true) table) :
    pruneDeleted table b = scanDeleted table 0 b ∧
    (pruneRemaining table b ≠ [] → b ≤ pruneFreed table b) ∧
    (∀ r, (pruneDeleted table b).getLast? = some r →
      pruneFreed table b < b + itemSize r) := by
  have hcond : ∀ x ∈ table,
      pruneCond table b x = decide (0 + (runningTotal table x - itemSize x) < b) := by
    intro x _
    rw [pruneCond, decide_eq_decide]
    omega
  have hdel : pruneDeleted table b = scanDeleted table 0 b := by
    rw [pruneDeleted, List.filter_congr hcond, prune_scan_aux table 0 b hsort]
  have hkept : pruneRemaining table b = scanKept table 0 b := by
    rw [pruneRemaining,
      List.filter_congr (fun x hx => congrArg (fun y => !y) (hcond x hx)),
      kept_scan_aux table 0 b hsort]
  have hfreed : pruneFreed table b = ((scanDeleted table 0 b).map itemSize).sum := by
    rw [pruneFreed, hdel]
  refine ⟨hdel, ?_, ?_⟩
  · intro hne
    rw [hkept] at hne
    have := scanKept_freed table 0 b hne
    rw [hfreed]
    omega
  · intro r hr
    rw [hdel] at hr
    have := scanDeleted_last table 0 b r hr
    rw [hfreed]
    omega

/-- Witness for the amended C5 on a strictly ordered two-row table with
`bytes_to_free` inside the second row. -/
theorem pruneCache_overfree_witness :
    List.Pairwise (fun r s => rowLT r s = true) [rowOldC, rowNewD] ∧
    (pruneDeleted [rowOldC, rowNewD] 120 = scanDeleted [rowOldC, rowNewD] 0 120 ∧
      (pruneRemaining [rowOldC, rowNewD] 120 ≠ [] →
        120 ≤ pruneFreed [rowOldC, rowNewD] 120) ∧
      (∀ r, (pruneDeleted [rowOldC, rowNewD] 120).getLast? = some r →
        pruneFreed [rowOldC, rowNewD] 120 < 120 + itemSize r)) :=
  ⟨by decide, pruneCache_overfree [rowOldC, rowNewD] 120 (by decide)⟩

